import Mathlib

/-!
# Verification of the protean packet-shaping library

A shallow embedding of the Go sources of OperatorFoundation/protean
(arithmetic range coder, fragmentation shaper, defragmenter, encryption
shaper, byte-sequence shaper), together with proofs settling the frozen
claims about the natural-language specification.

Conventions of the embedding:
* Go machine integers are modelled as `Nat` with explicit reductions
  (`% 4294967296` for `uint32` wrap, `% 65536` for `uint16`, `% 256` for
  `uint8`/`byte`) exactly where the source performs a wrapping operation
  or conversion.
* Go code that can panic (out-of-range slice index, assignment to a `nil`
  map) or diverge (unbounded loops) is modelled in `Option`, with `none`
  standing for the panic or divergence.  Loops of the source that have no
  structural termination argument are given explicit fuel; the fuel is
  chosen large enough that it is never exhausted on the executions the
  theorems talk about, and exhaustion returns `none`.
* The cryptographic randomness consumed by the source (`crypto/rand`) is
  modelled as an explicit byte stream `g : Nat → Nat` together with a
  read position that each operation threads through; theorems quantify
  over `g`, hence over every possible choice of random bytes.
-/

namespace Protean

/-- A read of `n` random bytes from the entropy stream `g` starting at
position `k` (models consecutive `rand.Read` of an `n`-byte buffer; the
`% 256` records that the stream delivers bytes). -/
def randBytes (g : Nat → Nat) (k n : Nat) : List Nat :=
  (List.range n).map (fun i => g (k + i) % 256)

theorem randBytes_length (g : Nat → Nat) (k n : Nat) :
    (randBytes g k n).length = n := by
  simp [randBytes]

/-- `encodeShort` from encryptionShaper.go: a `uint16` written
little-endian with `binary.Write`. -/
def encodeShort (v : Nat) : List Nat :=
  [v % 256, v / 256 % 256]

/-- `decodeShort` from encryptionShaper.go: a `uint16` read little-endian
with `binary.Read`; on a buffer shorter than two bytes `binary.Read`
fails and the value stays zero. -/
def decodeShort (b : List Nat) : Nat :=
  match b with
  | b0 :: b1 :: _ => b0 % 256 + 256 * (b1 % 256)
  | _ => 0

/-! ## Arithmetic range coder (arithmetic.go) -/

/-- `2^32`, the modulus of Go `uint32` arithmetic. -/
def U32 : Nat := 4294967296

/-- `sum` from arithmetic.go (accumulation in `uint32`). -/
def sumU32 (items : List Nat) : Nat :=
  items.foldl (fun accum item => (accum + item) % U32) 0

/-- `scale` from arithmetic.go: divide every entry by `divisor`, flooring
results of zero to one.  Go integer division by zero panics, modelled by
`none`. -/
def scale (items : List Nat) (divisor : Nat) : Option (List Nat) :=
  if divisor = 0 then none
  else some (items.map (fun item => if item / divisor = 0 then 1 else item / divisor))

/-- `max` from arithmetic.go. -/
def maxU32 (items : List Nat) : Nat :=
  items.foldl (fun top item => if item > top then item else top) 0

/-- A symbol's interval in the coding space (struct `Interval`). -/
structure Interval where
  symbol : Nat
  low : Nat
  length : Nat
  high : Nat
  deriving Repr, DecidableEq

/-- `makeInterval` from arithmetic.go (`high = low + length` in `uint32`). -/
def makeInterval (symbol low length : Nat) : Interval :=
  { symbol := symbol, low := low, length := length, high := (low + length) % U32 }

/-- `TOP_VALUE = 2^31`. -/
def TOP_VALUE : Nat := 2147483648

/-- `SHIFT_BITS = CODE_BITS - 9 = 23`. -/
def SHIFT_BITS : Nat := 23

/-- `EXTRA_BITS = (CODE_BITS-2) % 8 + 1 = 7`. -/
def EXTRA_BITS : Nat := 7

/-- `BOTTOM_VALUE = TOP_VALUE >> 8 = 2^23`. -/
def BOTTOM_VALUE : Nat := TOP_VALUE >>> 8

/-- The `while sum(probs) >= MAX_SUM` halving loop of `adjustProbs`.  The
source loop has no termination guarantee (an all-ones table longer than
`2^14` entries never shrinks), so it carries fuel. -/
def adjustLoop : Nat → List Nat → Option (List Nat)
  | 0, probs => if sumU32 probs ≥ 16384 then none else some probs
  | fuel + 1, probs =>
    if sumU32 probs ≥ 16384 then
      match scale probs 2 with
      | none => none
      | some probs2 => adjustLoop fuel probs2
    else some probs

/-- `adjustProbs` from arithmetic.go.  When the highest probability
exceeds 255 the divisor is `highest / 256`, which is zero for a highest
probability of at most 511 — a division-by-zero panic in `scale`,
modelled by `none`. -/
def adjustProbs (probs : List Nat) : Option (List Nat) :=
  let highestProb := maxU32 probs
  let step1 : Option (List Nat) :=
    if highestProb > 255 then scale probs (highestProb / 256) else some probs
  match step1 with
  | none => none
  | some probs1 => adjustLoop 64 probs1

/-- The interval table built by `NewCoder`: running lows are accumulated
over the raw (unadjusted) `probs` argument; a symbol outside the table
gets the zero-value `Interval` of a Go map miss. -/
def intervalAt (probs : List Nat) (sym : Nat) : Interval :=
  if sym < probs.length then
    makeInterval sym (sumU32 (probs.take sym)) (probs.getD sym 0)
  else
    { symbol := 0, low := 0, length := 0, high := 0 }

/-- The total of all interval lengths, `sum(adjusted probabilities)` as
computed by `NewCoder`. -/
def coderTotal (probs : List Nat) : Option Nat :=
  (adjustProbs probs).map sumU32

/-- The mutable coder state (`low`, `high`, `working`, `underflow` are
`uint32`; `input`/`output` are the byte buffers). -/
structure CoderState where
  low : Nat
  high : Nat
  working : Nat
  underflow : Nat
  input : List Nat
  output : List Nat
  deriving Repr, DecidableEq

/-- One pass of `Encoder.renormalize`'s `for this.high <= BOTTOM_VALUE`
loop, with fuel (the source loop can spin forever when `high` reaches
zero). -/
def encRenorm : Nat → CoderState → Option CoderState
  | 0, s => if s.high ≤ BOTTOM_VALUE then none else some s
  | fuel + 1, s =>
    if s.high ≤ BOTTOM_VALUE then
      let s1 : CoderState :=
        if s.low < 0xFF <<< SHIFT_BITS then
          { s with
            output := (s.output ++ [s.working]) ++ List.replicate s.underflow 0xFF
            underflow := 0
            working := (s.low >>> SHIFT_BITS) &&& 0xFF }
        else if s.low &&& TOP_VALUE ≠ 0 then
          { s with
            output := (s.output ++ [(s.working + 1) % U32]) ++ List.replicate s.underflow 0x00
            underflow := 0
            working := (s.low >>> SHIFT_BITS) &&& 0xFF }
        else
          { s with underflow := (s.underflow + 1) % U32 }
      encRenorm fuel
        { s1 with
          high := (s1.high <<< 8) % U32
          low := ((s1.low <<< 8) % U32) &&& (TOP_VALUE - 1) }
    else some s

/-- Fuel given to each renormalization call; far larger than any run the
theorems below evaluate. -/
def RENORM_FUEL : Nat := 64

/-- `Encoder.encodeSymbol` (all `uint32` operations wrap mod `2^32`). -/
def encodeSymbol (probs : List Nat) (total : Nat) (s : CoderState) (symbol : Nat) :
    Option CoderState :=
  let interval := intervalAt probs (symbol % 256)
  (encRenorm RENORM_FUEL s).map fun s1 =>
    let newRange := s1.high / total
    let temp := (newRange * interval.low) % U32
    { s1 with
      high :=
        if interval.high ≥ total then (s1.high + U32 - temp) % U32
        else (newRange * interval.length) % U32
      low := (s1.low + temp) % U32 }

/-- `Encoder.flush`: a final renormalization, then the two state bytes and
the self-referential two-byte big-endian output length. -/
def encFlush (s : CoderState) : Option CoderState :=
  (encRenorm RENORM_FUEL s).map fun s1 =>
    let temp := s1.low >>> SHIFT_BITS
    let o1 :=
      if temp > 0xFF then
        (s1.output ++ [(s1.working + 1) % U32]) ++ List.replicate s1.underflow 0x00
      else
        (s1.output ++ [s1.working]) ++ List.replicate s1.underflow 0xFF
    let o2 := o1 ++ [temp &&& 0xFF, (s1.low >>> (23 - 8)) &&& 0xFF]
    let o3 := o2 ++ [((o2.length % U32) >>> 8) &&& 0xFF]
    let o4 := o3 ++ [(o3.length % U32) &&& 0xFF]
    { s1 with output := o4, underflow := 0 }

/-- `Encoder.Encode`: initialize state (`Encoder.init`), encode every
input byte, flush, and convert the `uint32` output buffer to bytes. -/
def Encode (probs : List Nat) (input : List Nat) : Option (List Nat) := do
  let total ← coderTotal probs
  let s0 : CoderState :=
    { low := 0, high := TOP_VALUE, working := 0xCA, underflow := 0
      input := [], output := [] }
  let s1 ← input.foldlM (fun s b => encodeSymbol probs total s b) s0
  let s2 ← encFlush s1
  return s2.output.map (· % 256)

/-- One pass of `Decoder.renormalize`'s loop, with fuel. -/
def decRenorm : Nat → CoderState → Option CoderState
  | 0, s => if s.high ≤ BOTTOM_VALUE then none else some s
  | fuel + 1, s =>
    if s.high ≤ BOTTOM_VALUE then
      let high1 := (s.high <<< 8) % U32
      let low1 := ((s.low <<< 8) % U32) ||| ((s.working <<< EXTRA_BITS) &&& 0xFF)
      let (working1, input1) :=
        match s.input with
        | [] => (0, ([] : List Nat))
        | b :: rest => (b, rest)
      let low2 := (low1 ||| (working1 >>> (8 - EXTRA_BITS))) % U32
      decRenorm fuel { s with high := high1, low := low2, working := working1, input := input1 }
    else some s

/-- `Decoder.decodeSymbol` followed by `Decoder.update`.  After a
successful renormalization `high > BOTTOM_VALUE`, so the divisor
`underflow = high >> 8` is nonzero and the Go division cannot panic. -/
def decodeSymbolD (probs : List Nat) (total : Nat) (s : CoderState) : Option CoderState :=
  (decRenorm RENORM_FUEL s).map fun s1 =>
    let underflow := s1.high >>> 8
    let temp := s1.low / underflow
    let result := if temp >>> 8 ≠ 0 then 255 else temp
    let interval := intervalAt probs (result % 256)
    let temp2 := (underflow * interval.low) % U32
    { s1 with
      underflow := underflow
      output := s1.output ++ [result]
      low := (s1.low + U32 - temp2) % U32
      high :=
        if interval.high ≥ total then (s1.high + U32 - temp2) % U32
        else (underflow * interval.length) % U32 }

/-- `Decoder.decodeSymbols`: decode until the input buffer is empty.  A
`decodeSymbol` step need not consume input, so the source loop has no
termination argument; fuel models the possible divergence. -/
def decodeSymbols (probs : List Nat) (total : Nat) : Nat → CoderState → Option CoderState
  | 0, s => if s.input.isEmpty then some s else none
  | fuel + 1, s =>
    if s.input.isEmpty then some s
    else
      match decodeSymbolD probs total s with
      | none => none
      | some s1 => decodeSymbols probs total fuel s1

/-- `Decoder.flush`: decode one more symbol on the empty input, then
renormalize once more. -/
def decFlush (probs : List Nat) (total : Nat) (s : CoderState) : Option CoderState := do
  let s1 ← decodeSymbolD probs total s
  decRenorm RENORM_FUEL s1

/-- `Decoder.Decode`.  The trailing two bytes are read with the
little-endian `decodeShort` and `size = that - 4` (`uint16` wrap); the
copy loop `input[index]` for `index < size` panics when `size` exceeds
the buffer length, and `Decoder.init` panics when fewer than two bytes
were copied. -/
def Decode (probs : List Nat) (input : List Nat) : Option (List Nat) := do
  let total ← coderTotal probs
  -- input[len(input)-2:] panics when the buffer has fewer than two bytes
  if input.length < 2 then none
  else
    let sizeBytes := input.drop (input.length - 2)
    let size := (decodeShort sizeBytes + 65536 - 4) % 65536
    -- the copy loop indexes input[0 .. size-1]
    if input.length < size then none
    else
      let buf := input.take size
      -- Decoder.init: discard one byte, then read one byte into working
      if buf.length < 2 then none
      else
        let working := buf.getD 1 0
        let s0 : CoderState :=
          { low := working >>> (8 - EXTRA_BITS)
            high := 1 <<< EXTRA_BITS
            working := working
            underflow := 0
            input := buf.drop 2
            output := [] }
        let s1 ← decodeSymbols probs total (2 * buf.length + RENORM_FUEL) s0
        let s2 ← decFlush probs total s1
        return s2.output.map (· % 256)

/-- The 256-entry all-ones frequency table of
`sampleDecompressionConfig`. -/
def allOnes : List Nat := List.replicate 256 1

end Protean

namespace Protean

/-! ## Fragment codec (HEADER_SIZE, Fragment, encodeFragment) -/

/-- `HEADER_SIZE`: length + id + fragment number + total number. -/
def HEADER_SIZE : Nat := 2 + 32 + 1 + 1

/-- `IV_SIZE` from encryptionShaper.go. -/
def IV_SIZE : Nat := 16

/-- `CHUNK_SIZE` from encryptionShaper.go. -/
def CHUNK_SIZE : Nat := 16

/-- A packet fragment (struct `Fragment`): `Length` is `uint16`,
`Index` and `Count` are `uint8`, the remaining fields byte slices. -/
structure Fragment where
  Length : Nat
  Id : List Nat
  Index : Nat
  Count : Nat
  Payload : List Nat
  Padding : List Nat
  deriving Repr, DecidableEq

/-- `encodeFragment`: little-endian length, id, index byte, count byte,
payload, padding. -/
def encodeFragment (f : Fragment) : List Nat :=
  encodeShort f.Length ++ f.Id ++ [f.Index] ++ [f.Count] ++ f.Payload ++ f.Padding

/-! ## Fragmentation shaper (fragmentationShaper.go) -/

/-- The loop body of `fixFragments`: rewrite id, index (`uint8(index)`)
and count (`uint8(count)`) of every fragment. -/
def fixFrags (id : List Nat) (count : Nat) : Nat → List Fragment → List Fragment
  | _, [] => []
  | index, f :: rest =>
    { f with Id := id, Index := index % 256, Count := count % 256 } ::
      fixFrags id count (index + 1) rest

/-- `fixFragments`: reads `fragmentList[0].Id`, which panics on an empty
list (modelled by `none`). -/
def fixFragments (l : List Fragment) : Option (List Fragment) :=
  match l with
  | [] => none
  | f0 :: _ => some (fixFrags f0.Id l.length 0 l)

/-- `FragmentationShaper.makeFragments`, with fuel.  The recursion depth
is bounded by the buffer length (each recursive call is on a strictly
shorter prefix), so the wrapper's fuel of `length + 1` is never
exhausted; the fuel only serves the termination argument.  In the
single-fragment branch the padding is read from the random stream first
(`rand.Read(fill)`, guarded by `fillSize > 0`, a guard with no effect
since a zero-length read consumes nothing) and then the 32-byte random
id (`makeRandomId`).  In the multi-fragment branch `buffer[:firstLength]`
panics when `firstLength` is negative or exceeds the buffer length. -/
def makeFragmentsAux (g : Nat → Nat) (maxLength : Nat) :
    Nat → List Nat → Nat → Option (List Fragment × Nat)
  | 0, _, _ => none
  | fuel + 1, buffer, k =>
    let payloadSize := buffer.length + HEADER_SIZE + IV_SIZE
    let fillSize := CHUNK_SIZE - payloadSize % CHUNK_SIZE
    let packetSize := payloadSize + fillSize
    if packetSize ≤ maxLength then
      let fill := randBytes g k fillSize
      let id := randBytes g (k + fillSize) 32
      some ([{ Length := buffer.length % 65536, Id := id, Index := 0, Count := 1,
               Payload := buffer, Padding := fill }], k + fillSize + 32)
    else
      let firstLength : Int := (maxLength : Int) - ((HEADER_SIZE : Int) + IV_SIZE + fillSize)
      if firstLength < 0 ∨ (buffer.length : Int) < firstLength then none
      else
        match makeFragmentsAux g maxLength fuel (buffer.take firstLength.toNat) k with
        | none => none
        | some (first, k1) =>
          match makeFragmentsAux g maxLength fuel (buffer.take firstLength.toNat) k1 with
          | none => none
          | some (rest, k2) =>
            match fixFragments (first ++ rest) with
            | none => none
            | some fl => some (fl, k2)

/-- `FragmentationShaper.makeFragments` at adequate fuel. -/
def makeFragments (g : Nat → Nat) (maxLength : Nat) (buffer : List Nat) (k : Nat) :
    Option (List Fragment × Nat) :=
  makeFragmentsAux g maxLength (buffer.length + 1) buffer k

/-- `FragmentationShaper.Transform`: make fragments, then encode each. -/
def FragTransform (g : Nat → Nat) (maxLength : Nat) (buffer : List Nat) (k : Nat) :
    Option (List (List Nat) × Nat) :=
  (makeFragments g maxLength buffer k).map fun p => (p.1.map encodeFragment, p.2)

/-! ## Defragmenter (defragmenter.go) -/

/-- `CACHE_EXPIRATION_TIME`: the Go source is
`time.Duration(60 * 1000)`.  A Go `time.Duration` counts nanoseconds,
so the value is 60000 nanoseconds. -/
def CACHE_EXPIRATION_TIME : Nat := 60 * 1000

/-- One second expressed in the unit of a Go `time.Duration`
(nanoseconds). -/
def nanosecondsPerSecond : Nat := 1000000000

/-- One lowercase hex digit of `hex.EncodeToString`. -/
def hexDigit (n : Nat) : Nat := if n < 10 then 48 + n else 87 + n

/-- `hex.EncodeToString` of a byte slice, as the list of character
codes. -/
def hexEncode (bytes : List Nat) : List Nat :=
  (bytes.map fun b => [hexDigit (b % 256 / 16), hexDigit (b % 16)]).flatten

/-- A tracker entry (struct `PacketTracker`).  `Pieces` has `none` for
the `nil` slots of the Go `[][]byte`; `Counter` is `uint8`;
`TimerDuration` records the duration handed to `time.AfterFunc` when the
entry's expiration timer was armed. -/
structure PacketTracker where
  Pieces : List (Option (List Nat))
  Counter : Nat
  TimerDuration : Nat
  deriving Repr, DecidableEq

/-- The tracker map represented as an association list keyed by the hex
id.  `none` models a Go `nil` map (the zero value): lookups succeed and
find nothing, assignments panic. -/
abbrev TrackerMap := List (List Nat × PacketTracker)

/-- Lookup in the (possibly nil) tracker map. -/
def trackerLookup (m : Option TrackerMap) (key : List Nat) : Option PacketTracker :=
  match m with
  | none => none
  | some entries => (entries.find? fun e => e.1 == key).map (·.2)

/-- Assignment `m[key] = v` on a non-nil map. -/
def trackerInsert (entries : TrackerMap) (key : List Nat) (v : PacketTracker) : TrackerMap :=
  if entries.any (fun e => e.1 == key) then
    entries.map fun e => if e.1 == key then (key, v) else e
  else entries ++ [(key, v)]

/-- `delete(m, key)`. -/
def trackerDelete (entries : TrackerMap) (key : List Nat) : TrackerMap :=
  entries.filter fun e => ¬(e.1 == key)

/-- The defragmenter state (struct `Defragmenter`).  Both fields are
`nil` in the zero value; for the `complete` slice `nil` and empty are
observationally equal, but for the map the distinction matters, hence
the `Option`. -/
structure Defragmenter where
  tracker : Option TrackerMap
  complete : List (List (Option (List Nat)))
  deriving Repr, DecidableEq

/-- `Defragmenter.AddFragment`.  `none` models the Go panics: indexing
`Pieces[Index]` out of range, and the assignment
`this.tracker[hexid] = ...` on a nil map. -/
def AddFragment (d : Defragmenter) (f : Fragment) : Option Defragmenter :=
  let hexid := hexEncode f.Id
  match trackerLookup d.tracker hexid with
  | some tracked =>
    -- A fragment for an existing packet (so the map is non-nil).
    match d.tracker with
    | none => none
    | some m =>
      if hIdx : f.Index < tracked.Pieces.length then
        match tracked.Pieces.get ⟨f.Index, hIdx⟩ with
        | some _ => some d  -- duplicate fragment: log and drop
        | none =>
          let pieces := tracked.Pieces.set f.Index (some f.Payload)
          let counter := (tracked.Counter + 255) % 256
          let m1 := trackerInsert m hexid
            { tracked with Pieces := pieces, Counter := counter }
          if counter = 0 then
            some { tracker := some (trackerDelete m1 hexid)
                   complete := d.complete ++ [pieces] }
          else
            some { d with tracker := some m1 }
      else none  -- fragmentList[fragment.Index] out of range: panic
  | none =>
    -- A new fragment for a new packet.
    let pieces0 : List (Option (List Nat)) := List.replicate f.Count none
    if _hIdx : f.Index < pieces0.length then
      let pieces := pieces0.set f.Index (some f.Payload)
      let counter := (f.Count + 255) % 256
      if counter = 0 then
        some { d with complete := d.complete ++ [pieces] }
      else
        match d.tracker with
        | none => none  -- assignment into a nil map: panic
        | some m =>
          some { d with tracker := some (trackerInsert m hexid
            { Pieces := pieces, Counter := counter
              TimerDuration := CACHE_EXPIRATION_TIME }) }
    else none  -- fragmentList[fragment.Index] out of range: panic

/-- `Defragmenter.CompleteCount`. -/
def CompleteCount (d : Defragmenter) : Nat := d.complete.length

/-- The loop of `Defragmenter.GetComplete`: `i` counts up while the
`complete` list is popped from the back, so the loop stops as soon as
`i` reaches the shrunken length.  Each iteration shortens the list, so
the fuel of `length + 1` handed over by `GetComplete` is never
exhausted; it only serves the termination argument. -/
def getCompleteLoop : Nat → Nat → List (List (Option (List Nat))) →
    List (List Nat) → List (List Nat) × List (List (Option (List Nat)))
  | 0, _, complete, packets => (packets, complete)
  | fuel + 1, i, complete, packets =>
    if i < complete.length then
      let fragmentList := complete.getLastD []
      let complete1 := complete.dropLast
      let packets1 :=
        if fragmentList.length > 0 then
          packets ++ [(fragmentList.map fun p => p.getD []).flatten]
        else packets
      getCompleteLoop fuel (i + 1) complete1 packets1
    else (packets, complete)

/-- `Defragmenter.GetComplete`. -/
def GetComplete (d : Defragmenter) : List (List Nat) × Defragmenter :=
  let r := getCompleteLoop (d.complete.length + 1) 0 d.complete []
  (r.1, { d with complete := r.2 })

end Protean

namespace Protean

/-! ## Encryption shaper (encryptionShaper.go)

The AES block cipher itself lives in Go's standard library, outside this
repository; it is modelled as abstract block-cipher parameters
`E D : List Nat → List Nat → List Nat` (key, block ↦ block), with the
block-cipher laws as hypotheses of the theorems that need them.  The CBC
chaining, padding and framing below are translated from the source. -/

/-- Per-byte XOR of two equal-length blocks (the CBC whitening step of
`crypto/cipher`). -/
def xorBytes (a b : List Nat) : List Nat :=
  List.zipWith (fun x y => x ^^^ y) a b

/-- The chunking performed by the `for x := 0; x < len/CHUNK_SIZE` loops
of `encrypt` and `decrypt`: consecutive 16-byte blocks, any shorter tail
ignored. -/
def chunk16 (l : List Nat) : List (List Nat) :=
  if _h : l.length < 16 then [] else l.take 16 :: chunk16 (l.drop 16)
termination_by l.length
decreasing_by
  simp only [List.length_drop]
  omega

/-- CBC encryption chaining (`cipher.NewCBCEncrypter` then one
`CryptBlocks` per 16-byte chunk). -/
def cbcEnc (E : List Nat → List Nat) : List Nat → List (List Nat) → List (List Nat)
  | _, [] => []
  | prev, blk :: rest =>
    let c := E (xorBytes blk prev)
    c :: cbcEnc E c rest

/-- CBC decryption chaining (`cipher.NewCBCDecrypter`). -/
def cbcDec (D : List Nat → List Nat) : List Nat → List (List Nat) → List (List Nat)
  | _, [] => []
  | prev, c :: rest => xorBytes (D c) prev :: cbcDec D c rest

/-- `aes.NewCipher` succeeds exactly for 16-, 24- or 32-byte keys. -/
def aesKeyOk (key : List Nat) : Bool :=
  key.length == 16 || key.length == 24 || key.length == 32

/-- `encrypt` from encryptionShaper.go: prepend the little-endian
`uint16` length, pad with random bytes to a multiple of 16 unless
already aligned, then CBC-encrypt.  On a bad key `aes.NewCipher` errors
and the function returns `nil` (the empty list); the random padding has
already been consumed at that point. -/
def encryptBytes (E : List Nat → List Nat → List Nat) (key iv buffer : List Nat)
    (g : Nat → Nat) (k : Nat) : List Nat × Nat :=
  let lengthB := encodeShort (buffer.length % 65536)
  let remainder := (lengthB.length + buffer.length) % CHUNK_SIZE
  let pk : List Nat × Nat :=
    if remainder = 0 then (lengthB ++ buffer, k)
    else (lengthB ++ buffer ++ randBytes g k (CHUNK_SIZE - remainder),
          k + (CHUNK_SIZE - remainder))
  if aesKeyOk key then ((cbcEnc (E key) iv (chunk16 pk.1)).flatten, pk.2)
  else ([], pk.2)

/-- `EncryptionShaper.Transform`: fresh random 16-byte IV, encrypt,
emit the single datagram `IV ++ ciphertext`. -/
def EncTransform (E : List Nat → List Nat → List Nat) (key buffer : List Nat)
    (g : Nat → Nat) (k : Nat) : List (List Nat) × Nat :=
  let iv := randBytes g k IV_SIZE
  let r := encryptBytes E key iv buffer g (k + IV_SIZE)
  ([iv ++ r.1], r.2)

/-- `decrypt` from encryptionShaper.go: CBC-decrypt, then read the
little-endian length prefix `plaintext[0:2]` (a panic when the recovered
plaintext is shorter than two bytes, in particular when the ciphertext
is shorter than one block) and drop the padding. -/
def decryptBytes (D : List Nat → List Nat → List Nat) (key iv ciphertext : List Nat) :
    Option (List Nat) :=
  if aesKeyOk key then
    let plaintext := (cbcDec (D key) iv (chunk16 ciphertext)).flatten
    if plaintext.length < 2 then none
    else
      let len := decodeShort (plaintext.take 2)
      let rest := plaintext.drop 2
      if rest.length > len then some (rest.take len) else some rest
  else some []

/-- `EncryptionShaper.Restore`: split off the 16-byte IV (a panic on a
shorter buffer) and decrypt. -/
def EncRestore (D : List Nat → List Nat → List Nat) (key buffer : List Nat) :
    Option (List (List Nat)) :=
  if buffer.length < IV_SIZE then none
  else (decryptBytes D key (buffer.take IV_SIZE) (buffer.drop IV_SIZE)).map fun p => [p]

/-! ## Byte-sequence shaper (byteSequenceShaper source file) -/

/-- A decoy description (struct `SequenceModel`): `Index` is `int8`,
`Offset` and `Length` are `int16`, `Sequence` the signature bytes. -/
structure SequenceModel where
  Index : Int
  Offset : Int
  Sequence : List Nat
  Length : Int
  deriving Repr, DecidableEq

/-- The shaper state (struct `ByteSequenceShaper`). -/
structure ByteSequenceShaper where
  AddSequences : List SequenceModel
  RemoveSequences : List SequenceModel
  FirstIndex : Int
  LastIndex : Int
  OutputIndex : Int
  deriving Repr, DecidableEq

/-- Two's-complement wraparound of Go `int8` arithmetic, applied where
the source increments `OutputIndex`. -/
def wrap8 (x : Int) : Int := (x + 128) % 256 - 128

/-- `findNextPacket`: first add-sequence whose `Index` equals the given
stream position. -/
def findNextPacket (s : ByteSequenceShaper) (index : Int) : Option SequenceModel :=
  s.AddSequences.find? fun m => m.Index == index

/-- `makePacket`: random bytes before the signature (only when
`Offset > 0`), the signature, then `Length - (Offset + len(Sequence))`
random bytes when `Offset < Length` — `make` with a negative size
panics (`none`). -/
def makePacket (g : Nat → Nat) (k : Nat) (model : SequenceModel) :
    Option (List Nat × Nat) :=
  let lead : List Nat × Nat :=
    if model.Offset > 0 then
      (randBytes g k model.Offset.toNat, k + model.Offset.toNat)
    else ([], k)
  let withSig := lead.1 ++ model.Sequence
  if model.Offset < model.Length then
    let tailLen : Int := model.Length - (model.Offset + model.Sequence.length)
    if tailLen < 0 then none
    else some (withSig ++ randBytes g lead.2 tailLen.toNat, lead.2 + tailLen.toNat)
  else some (withSig, lead.2)

/-- The `for nextPacket != nil` loop of `Inject`, with fuel.  The
position cycles through at most 256 `int8` values, so 257 iterations
without exiting imply the source loop never exits; exhaustion is
`none`. -/
def injectLoop (g : Nat → Nat) :
    Nat → ByteSequenceShaper → List (List Nat) → Nat →
    Option (List (List Nat) × ByteSequenceShaper × Nat)
  | 0, _, _, _ => none
  | fuel + 1, s, results, k =>
    match findNextPacket s s.OutputIndex with
    | none => some (results, s, k)
    | some m =>
      match makePacket g k m with
      | none => none
      | some (pkt, k1) =>
        injectLoop g fuel { s with OutputIndex := wrap8 (s.OutputIndex + 1) }
          (results ++ [pkt]) k1

/-- Fuel for `injectLoop`: one more than the `int8` cycle length. -/
def INJECT_FUEL : Nat := 257

/-- `ByteSequenceShaper.Transform`: fast path after the last injection
index, counting path before the first, and the
inject / output-real-packet / inject sequence inside the window. -/
def SeqTransform (s : ByteSequenceShaper) (buffer : List Nat) (g : Nat → Nat) (k : Nat) :
    Option (List (List Nat) × ByteSequenceShaper × Nat) :=
  if s.OutputIndex ≤ s.LastIndex then
    if s.OutputIndex ≥ s.FirstIndex then
      match injectLoop g INJECT_FUEL s [] k with
      | none => none
      | some (r1, s1, k1) =>
        let s2 := { s1 with OutputIndex := wrap8 (s1.OutputIndex + 1) }
        match injectLoop g INJECT_FUEL s2 (r1 ++ [buffer]) k1 with
        | none => none
        | some (r3, s3, k3) => some (r3, s3, k3)
    else
      some ([buffer], { s with OutputIndex := wrap8 (s.OutputIndex + 1) }, k)
  else
    some ([buffer], s, k)

/-- The scan of `findMatchingPacket` over `RemoveSequences`: the slice
`sequence[Offset : Offset+len(target)]` panics (`none`) when the offset
is negative or reaches past the end of the datagram; on the first
signature match the entry is removed from the list. -/
def findMatch (buffer : List Nat) :
    List SequenceModel → Option (Option (SequenceModel × List SequenceModel))
  | [] => some none
  | m :: rest =>
    if m.Offset < 0 ∨ (buffer.length : Int) < m.Offset + m.Sequence.length then none
    else
      let source := (buffer.drop m.Offset.toNat).take m.Sequence.length
      if source = m.Sequence then some (some (m, rest))
      else
        match findMatch buffer rest with
        | none => none
        | some none => some none
        | some (some (m2, rest2)) => some (some (m2, m :: rest2))

/-- `ByteSequenceShaper.Restore`: consume a matched decoy (empty result)
or pass the datagram through. -/
def SeqRestore (s : ByteSequenceShaper) (buffer : List Nat) :
    Option (List (List Nat) × ByteSequenceShaper) :=
  match findMatch buffer s.RemoveSequences with
  | none => none
  | some none => some ([buffer], s)
  | some (some (_, rest)) => some ([], { s with RemoveSequences := rest })

end Protean

namespace Protean

/-! ## Claims about the range coder (C1, C2) -/

set_option maxRecDepth 8000 in
/-- C2: with the 256-entry all-ones frequency table, `Encoder.Encode`
applied to the byte sequence `00 01 02 03` returns the byte sequence
`CA 00 01 02 03 00 00 00 08`. -/
theorem encode_short_vector :
    Encode allOnes [0x00, 0x01, 0x02, 0x03] =
      some [0xCA, 0x00, 0x01, 0x02, 0x03, 0x00, 0x00, 0x00, 0x08] := by
  decide

set_option maxRecDepth 8000 in
/-- C1 (evaluation at the failing input): with the 256-entry all-ones
frequency table, `Decoder.Decode` applied to `CA 00 01 02 03 00 00 00 08`
does not return `00 01 02 03`; it panics.  The trailing two bytes
`00 08` are read by the little-endian `decodeShort` as 2048, the copy
size becomes 2044, and the copy loop indexes past the end of the 9-byte
input. -/
theorem decode_short_vector_panics :
    Decode allOnes [0xCA, 0x00, 0x01, 0x02, 0x03, 0x00, 0x00, 0x00, 0x08] = none := by
  decide

/-! ## Claims about the defragmenter (C6, C7, C9) -/

/-- C6 (evaluation at the failing input): with two completed datagrams
stored, `Defragmenter.GetComplete` returns only the most recently
completed one and leaves the other stored, so `CompleteCount`
afterwards is 1, not 0. -/
theorem getComplete_leaves_items :
    GetComplete { tracker := some [], complete := [[some [1]], [some [2]]] } =
      ([[2]], { tracker := some [], complete := [[some [1]]] }) ∧
    CompleteCount
      (GetComplete { tracker := some [], complete := [[some [1]], [some [2]]] }).2 = 1 := by
  decide

/-- C7 (evaluation at the failing input): storing a first fragment with
`Count = 2` arms an expiration timer whose duration is
`CACHE_EXPIRATION_TIME = 60 * 1000` units of a Go `time.Duration`, that
is 60000 nanoseconds (60 microseconds) — not sixty seconds. -/
theorem cache_expiration_not_sixty_seconds :
    AddFragment { tracker := some [], complete := [] }
        { Length := 1, Id := [7], Index := 0, Count := 2, Payload := [9], Padding := [] } =
      some { tracker := some [([48, 55],
               { Pieces := [some [9], none], Counter := 1
                 TimerDuration := CACHE_EXPIRATION_TIME })]
             complete := [] } ∧
    CACHE_EXPIRATION_TIME = 60 * 1000 ∧
    CACHE_EXPIRATION_TIME ≠ 60 * nanosecondsPerSecond := by
  decide

/-- C9: on a zero-value `Defragmenter` (the one
`FragmentationShaper.ConfigureStruct` builds) the tracker map is nil, so
`AddFragment` with `Count ≥ 2` assigns into the nil map and panics, and
every call that returns normally carries a fragment with `Count = 1`
(and leaves the tracker nil, so this persists across calls). -/
theorem addFragment_nil_tracker (d : Defragmenter) (hd : d.tracker = none)
    (f : Fragment) (hc : f.Count < 256) :
    (2 ≤ f.Count → AddFragment d f = none) ∧
    (∀ d2, AddFragment d f = some d2 → f.Count = 1 ∧ d2.tracker = none) := by
  have hlookup : trackerLookup d.tracker (hexEncode f.Id) = none := by
    rw [hd]; rfl
  constructor
  · intro h2
    simp only [AddFragment, hlookup]
    split
    · have hcounter : (f.Count + 255) % 256 ≠ 0 := by omega
      rw [if_neg hcounter, hd]
    · rfl
  · intro d2 hadd
    simp only [AddFragment, hlookup] at hadd
    split at hadd
    · by_cases hcounter : (f.Count + 255) % 256 = 0
      · have hone : f.Count = 1 := by omega
        rw [if_pos hcounter] at hadd
        refine ⟨hone, ?_⟩
        cases hadd
        simpa using hd
      · rw [if_neg hcounter, hd] at hadd
        exact absurd hadd (by simp)
    · exact absurd hadd (by simp)

/-- Witness for C9 at a concrete zero-value defragmenter and a concrete
two-fragment packet. -/
theorem addFragment_nil_tracker_witness :
    AddFragment { tracker := none, complete := [] }
      { Length := 1, Id := [7], Index := 0, Count := 2, Payload := [9], Padding := [] } = none :=
  (addFragment_nil_tracker { tracker := none, complete := [] } rfl
    { Length := 1, Id := [7], Index := 0, Count := 2, Payload := [9], Padding := [] }
    (by decide)).1 (by decide)

/-! ## Claim about the byte-sequence shaper restore path (C10) -/

/-- C10: when the remove-sequence list is non-empty and the incoming
datagram is shorter than `Offset + len(Sequence)` of its first entry,
`ByteSequenceShaper.Restore` panics on the out-of-range slice instead of
returning the datagram. -/
theorem restore_short_buffer_panics (s : ByteSequenceShaper) (m : SequenceModel)
    (rest : List SequenceModel) (hs : s.RemoveSequences = m :: rest)
    (buffer : List Nat) (h : (buffer.length : Int) < m.Offset + m.Sequence.length) :
    SeqRestore s buffer = none := by
  simp only [SeqRestore, hs, findMatch]
  rw [if_pos (Or.inr h)]

/-- Witness for C10: a one-entry remove list expecting three signature
bytes at offset zero, fed a one-byte datagram. -/
theorem restore_short_buffer_panics_witness :
    SeqRestore { AddSequences := [], RemoveSequences := [⟨0, 0, [1, 2, 3], 4⟩]
                 FirstIndex := 0, LastIndex := 0, OutputIndex := 0 } [9] = none :=
  restore_short_buffer_panics _ ⟨0, 0, [1, 2, 3], 4⟩ [] rfl [9] (by decide)

end Protean

namespace Protean

/-! ## Claim about single-fragment transformation (C5) -/

/-- Unfolding of `makeFragments` in its single-fragment branch. -/
theorem makeFragmentsAux_single (g : Nat → Nat) (maxLength fuel : Nat) (buffer : List Nat)
    (k : Nat) (hfuel : 1 ≤ fuel)
    (h : buffer.length + HEADER_SIZE + IV_SIZE +
        (CHUNK_SIZE - (buffer.length + HEADER_SIZE + IV_SIZE) % CHUNK_SIZE) ≤ maxLength) :
    makeFragmentsAux g maxLength fuel buffer k =
      some ([{ Length := buffer.length % 65536
               Id := randBytes g
                 (k + (CHUNK_SIZE - (buffer.length + HEADER_SIZE + IV_SIZE) % CHUNK_SIZE)) 32
               Index := 0, Count := 1, Payload := buffer
               Padding := randBytes g k
                 (CHUNK_SIZE - (buffer.length + HEADER_SIZE + IV_SIZE) % CHUNK_SIZE) }],
            k + (CHUNK_SIZE - (buffer.length + HEADER_SIZE + IV_SIZE) % CHUNK_SIZE) + 32) := by
  obtain ⟨fuel2, rfl⟩ : ∃ m, fuel = m + 1 := ⟨fuel - 1, by omega⟩
  simp only [makeFragmentsAux]
  rw [if_pos h]

/-- C5: for a payload fitting one fragment
(`|b| + 36 + 16 ≤ 1440 − 16`, `maxLength = 1440`), the shaper produces
exactly one fragment with index 0, count 1 and length `|b|`, and the
encoded fragment's wire size `2 + 32 + 1 + 1 + |b| + |padding|` is a
multiple of 16. -/
theorem fragmentation_single (g : Nat → Nat) (k : Nat) (b : List Nat)
    (h : b.length + HEADER_SIZE + IV_SIZE ≤ 1440 - CHUNK_SIZE) :
    ∃ frag k2,
      makeFragments g 1440 b k = some ([frag], k2) ∧
      FragTransform g 1440 b k = some ([encodeFragment frag], k2) ∧
      frag.Index = 0 ∧ frag.Count = 1 ∧ frag.Length = b.length ∧
      (encodeFragment frag).length = 2 + 32 + 1 + 1 + b.length + frag.Padding.length ∧
      (encodeFragment frag).length % 16 = 0 := by
  have hH : HEADER_SIZE = 36 := rfl
  have hI : IV_SIZE = 16 := rfl
  have hC : CHUNK_SIZE = 16 := rfl
  rw [hH, hI, hC] at h
  have hcond : b.length + HEADER_SIZE + IV_SIZE +
      (CHUNK_SIZE - (b.length + HEADER_SIZE + IV_SIZE) % CHUNK_SIZE) ≤ 1440 := by
    rw [hH, hI, hC]
    omega
  have hrw := makeFragmentsAux_single g 1440 (b.length + 1) b k (by omega) hcond
  refine ⟨_, _, hrw, ?_, rfl, rfl, ?_, ?_, ?_⟩
  · simp only [FragTransform, makeFragments, hrw]
    rfl
  · exact Nat.mod_eq_of_lt (by omega)
  · simp [encodeFragment, encodeShort, randBytes_length]
    omega
  · simp [encodeFragment, encodeShort, randBytes_length]
    rw [hH, hI, hC]
    omega

/-- Witness for C5 at a one-byte payload. -/
theorem fragmentation_single_witness :
    ∃ frag k2,
      makeFragments (fun _ => 0) 1440 [5] 0 = some ([frag], k2) ∧
      FragTransform (fun _ => 0) 1440 [5] 0 = some ([encodeFragment frag], k2) ∧
      frag.Index = 0 ∧ frag.Count = 1 ∧ frag.Length = 1 ∧
      (encodeFragment frag).length = 2 + 32 + 1 + 1 + 1 + frag.Padding.length ∧
      (encodeFragment frag).length % 16 = 0 :=
  fragmentation_single (fun _ => 0) 0 [5] (by decide)

/-! ## Claim about decoy injection at stream position two (C8) -/

/-- C8: with add and remove sequences both `[(index 2, offset 0,
signature "SIG" = 83 73 71, length 4)]` and `OutputIndex` starting at 0,
three successive transforms of `a`, `b`, `c` yield `[a]`, `[b]`, and
`[decoy, c]` where the decoy is the three signature bytes followed by
one random byte. -/
theorem byteSequence_inject_at_two (g : Nat → Nat) (k : Nat) (a b c : List Nat) :
    SeqTransform ⟨[⟨2, 0, [83, 73, 71], 4⟩], [⟨2, 0, [83, 73, 71], 4⟩], 2, 2, 0⟩ a g k =
      some ([a], ⟨[⟨2, 0, [83, 73, 71], 4⟩], [⟨2, 0, [83, 73, 71], 4⟩], 2, 2, 1⟩, k) ∧
    SeqTransform ⟨[⟨2, 0, [83, 73, 71], 4⟩], [⟨2, 0, [83, 73, 71], 4⟩], 2, 2, 1⟩ b g k =
      some ([b], ⟨[⟨2, 0, [83, 73, 71], 4⟩], [⟨2, 0, [83, 73, 71], 4⟩], 2, 2, 2⟩, k) ∧
    SeqTransform ⟨[⟨2, 0, [83, 73, 71], 4⟩], [⟨2, 0, [83, 73, 71], 4⟩], 2, 2, 2⟩ c g k =
      some ([[83, 73, 71, g k % 256], c],
            ⟨[⟨2, 0, [83, 73, 71], 4⟩], [⟨2, 0, [83, 73, 71], 4⟩], 2, 2, 4⟩, k + 1) :=
  ⟨rfl, rfl, rfl⟩

end Protean

namespace Protean

/-! ## Claim about the multi-fragment split (C3) -/

/-- Unfolding of `makeFragments` at `maxLength = 1440` in its
multi-fragment branch: the buffer is split, both recursive calls get the
same prefix of `1388 - fill` bytes, each lands in the single-fragment
branch, and `fixFragments` renumbers the two results. -/

theorem makeFragments_1440_two (g : Nat → Nat) (buffer : List Nat) (k : Nat) (fill : Nat)
    (hfill : fill = CHUNK_SIZE - (buffer.length + HEADER_SIZE + IV_SIZE) % CHUNK_SIZE)
    (h : 1440 < buffer.length + HEADER_SIZE + IV_SIZE + fill) :
    makeFragments g 1440 buffer k =
      some ([{ Length := (1388 - fill) % 65536
               Id := randBytes g (k + fill) 32
               Index := 0, Count := 2
               Payload := buffer.take (1388 - fill)
               Padding := randBytes g k fill },
             { Length := (1388 - fill) % 65536
               Id := randBytes g (k + fill) 32
               Index := 1, Count := 2
               Payload := buffer.take (1388 - fill)
               Padding := randBytes g (k + fill + 32) fill }],
            k + fill + 32 + fill + 32) := by
  have hH : HEADER_SIZE = 36 := rfl
  have hI : IV_SIZE = 16 := rfl
  have hC : CHUNK_SIZE = 16 := rfl
  rw [hH, hI, hC] at hfill
  rw [hH, hI] at h
  have hfill1 : 1 ≤ fill := by omega
  have hfill16 : fill ≤ 16 := by omega
  have hlen : 1388 - fill < buffer.length := by omega
  have hfuel : 1 ≤ buffer.length := by omega
  have hpre : (buffer.take (1388 - fill)).length = 1388 - fill := by
    simp [List.length_take]
    omega
  have hinner1 := makeFragmentsAux_single g 1440 buffer.length (buffer.take (1388 - fill)) k
    hfuel (by simp only [hpre, hH, hI, hC]; omega)
  have hinner2 := makeFragmentsAux_single g 1440 buffer.length (buffer.take (1388 - fill))
    (k + fill + 32) hfuel (by simp only [hpre, hH, hI, hC]; omega)
  have hfill2 : CHUNK_SIZE -
      ((buffer.take (1388 - fill)).length + HEADER_SIZE + IV_SIZE) % CHUNK_SIZE = fill := by
    simp only [hpre, hH, hI, hC]
    omega
  rw [hfill2, hpre] at hinner1 hinner2
  simp only [makeFragments, makeFragmentsAux]
  rw [hH, hI, hC, ← hfill]
  split
  · exfalso
    omega
  · split
    · exfalso
      omega
    · have htn : (((1440 : Nat) : Int) -
          (((36 : Nat) : Int) + ((16 : Nat) : Int) + ((fill : Nat) : Int))).toNat =
          1388 - fill := by omega
      simp only [htn, hinner1, hinner2]
      simp [fixFragments, fixFrags]


/-- C3 (amended): whenever `makeFragments` takes the multi-fragment
branch, both recursive calls receive the identical prefix
`buffer[:firstLength]`, so the payloads of the produced fragments are
two copies of that same prefix, and their concatenation differs from
the original buffer unless the buffer happens to equal the prefix
repeated twice. -/
theorem makeFragments_same_head (g : Nat → Nat) (buffer : List Nat) (k : Nat)
    (h : 1440 < buffer.length + HEADER_SIZE + IV_SIZE +
        (CHUNK_SIZE - (buffer.length + HEADER_SIZE + IV_SIZE) % CHUNK_SIZE)) :
    ∃ frags k2,
      makeFragments g 1440 buffer k = some (frags, k2) ∧
      frags.map Fragment.Payload =
        [buffer.take (1388 - (CHUNK_SIZE - (buffer.length + HEADER_SIZE + IV_SIZE) % CHUNK_SIZE)),
         buffer.take (1388 - (CHUNK_SIZE - (buffer.length + HEADER_SIZE + IV_SIZE) % CHUNK_SIZE))] ∧
      (buffer ≠
          buffer.take (1388 - (CHUNK_SIZE - (buffer.length + HEADER_SIZE + IV_SIZE) % CHUNK_SIZE)) ++
          buffer.take (1388 - (CHUNK_SIZE - (buffer.length + HEADER_SIZE + IV_SIZE) % CHUNK_SIZE)) →
        (frags.map Fragment.Payload).flatten ≠ buffer) := by
  have h2 := makeFragments_1440_two g buffer k _ rfl h
  refine ⟨_, _, h2, rfl, ?_⟩
  intro hne
  simp only [List.map_cons, List.map_nil, List.flatten_cons, List.flatten_nil, List.append_nil]
  exact fun hedge => hne hedge.symm

/-- C3 (counterexample to the claim as stated): a buffer of 2752 zero
bytes takes the multi-fragment branch, and the concatenation of the
produced payloads is exactly the original buffer — it is the prefix of
1376 bytes twice, and the buffer is that repetition. -/
theorem makeFragments_same_head_counterexample :
    1440 < (List.replicate 2752 (0 : Nat)).length + HEADER_SIZE + IV_SIZE +
      (CHUNK_SIZE - ((List.replicate 2752 (0 : Nat)).length + HEADER_SIZE + IV_SIZE) %
        CHUNK_SIZE) ∧
    ∃ frags k2,
      makeFragments (fun _ => 0) 1440 (List.replicate 2752 (0 : Nat)) 0 = some (frags, k2) ∧
      (frags.map Fragment.Payload).flatten = List.replicate 2752 (0 : Nat) := by
  refine ⟨by simp only [List.length_replicate]; decide, ?_⟩
  have h2 := makeFragments_1440_two (fun _ => 0) (List.replicate 2752 (0 : Nat)) 0 12
    (by simp only [List.length_replicate]; decide)
    (by simp only [List.length_replicate]; decide)
  refine ⟨_, _, h2, ?_⟩
  simp only [List.map_cons, List.map_nil, List.flatten_cons, List.flatten_nil, List.append_nil]
  have ht : (List.replicate 2752 (0 : Nat)).take (1388 - 12) = List.replicate 1376 0 := by
    rw [List.take_replicate]
    norm_num
  rw [ht, ← List.replicate_add]

/-- Witness for the amended C3 at a buffer of 1389 one-bytes: the
multi-branch is taken and the buffer is not the duplicated prefix, so
the payload concatenation differs from it. -/
theorem makeFragments_same_head_witness :
    ∃ frags k2,
      makeFragments (fun _ => 0) 1440 (List.replicate 1389 (1 : Nat)) 0 = some (frags, k2) ∧
      frags.map Fragment.Payload =
        [(List.replicate 1389 (1 : Nat)).take (1388 - (CHUNK_SIZE -
            ((List.replicate 1389 (1 : Nat)).length + HEADER_SIZE + IV_SIZE) % CHUNK_SIZE)),
         (List.replicate 1389 (1 : Nat)).take (1388 - (CHUNK_SIZE -
            ((List.replicate 1389 (1 : Nat)).length + HEADER_SIZE + IV_SIZE) % CHUNK_SIZE))] ∧
      (List.replicate 1389 (1 : Nat) ≠
          (List.replicate 1389 (1 : Nat)).take (1388 - (CHUNK_SIZE -
            ((List.replicate 1389 (1 : Nat)).length + HEADER_SIZE + IV_SIZE) % CHUNK_SIZE)) ++
          (List.replicate 1389 (1 : Nat)).take (1388 - (CHUNK_SIZE -
            ((List.replicate 1389 (1 : Nat)).length + HEADER_SIZE + IV_SIZE) % CHUNK_SIZE)) →
        (frags.map Fragment.Payload).flatten ≠ List.replicate 1389 (1 : Nat)) :=
  makeFragments_same_head (fun _ => 0) (List.replicate 1389 (1 : Nat)) 0
    (by simp only [List.length_replicate]; decide)

end Protean

namespace Protean

/-! ## Claim about the encryption round-trip (C4) -/

theorem xorBytes_length (a b : List Nat) : (xorBytes a b).length = min a.length b.length := by
  simp [xorBytes]

theorem xorBytes_cancel (a b : List Nat) (h : a.length = b.length) :
    xorBytes (xorBytes a b) b = a := by
  induction a generalizing b with
  | nil => simp [xorBytes]
  | cons x xs ih =>
    cases b with
    | nil => simp at h
    | cons y ys =>
      have htail := ih ys (by simpa using h)
      simp only [xorBytes, List.zipWith_cons_cons] at htail ⊢
      rw [Nat.xor_cancel_right, htail]

theorem chunk16_eq (l : List Nat) :
    chunk16 l = if l.length < 16 then [] else l.take 16 :: chunk16 (l.drop 16) := by
  rw [chunk16]
  split
  · rfl
  · rfl

theorem chunk16_flatten_of_blocks (bl : List (List Nat)) (h : ∀ b ∈ bl, b.length = 16) :
    chunk16 bl.flatten = bl := by
  induction bl with
  | nil =>
    rw [chunk16_eq]
    simp
  | cons b rest ih =>
    have hb : b.length = 16 := h b (List.mem_cons_self b rest)
    have hrest : ∀ x ∈ rest, x.length = 16 := fun x hx => h x (List.mem_cons_of_mem b hx)
    rw [List.flatten_cons, chunk16_eq]
    have hlen : ¬((b ++ rest.flatten).length < 16) := by
      simp [hb]
    rw [if_neg hlen, List.take_left' hb, List.drop_left' hb, ih hrest]

theorem mem_chunk16_length : ∀ (n : Nat) (l : List Nat), l.length ≤ n →
    ∀ b ∈ chunk16 l, b.length = 16 := by
  intro n
  induction n with
  | zero =>
    intro l hl b hb
    rw [chunk16_eq, if_pos (by omega)] at hb
    simp at hb
  | succ n ih =>
    intro l hl b hb
    rw [chunk16_eq] at hb
    by_cases hsmall : l.length < 16
    · rw [if_pos hsmall] at hb
      simp at hb
    · rw [if_neg hsmall] at hb
      rcases List.mem_cons.mp hb with hhead | htail
      · rw [hhead]
        simp
        omega
      · exact ih (l.drop 16) (by simp; omega) b htail

theorem flatten_chunk16 : ∀ (n : Nat) (l : List Nat), l.length ≤ n → 16 ∣ l.length →
    (chunk16 l).flatten = l := by
  intro n
  induction n with
  | zero =>
    intro l hl hdvd
    have : l = [] := List.eq_nil_of_length_eq_zero (by omega)
    rw [this, chunk16_eq]
    simp
  | succ n ih =>
    intro l hl hdvd
    by_cases hsmall : l.length < 16
    · have : l = [] := List.eq_nil_of_length_eq_zero (by omega)
      rw [this, chunk16_eq]
      simp
    · rw [chunk16_eq, if_neg hsmall, List.flatten_cons,
        ih (l.drop 16) (by simp; omega) (by simp; omega), List.take_append_drop]

theorem flatten_length_of_blocks (bl : List (List Nat)) (h : ∀ b ∈ bl, b.length = 16) :
    bl.flatten.length = 16 * bl.length := by
  induction bl with
  | nil => simp
  | cons b rest ih =>
    have hb : b.length = 16 := h b (List.mem_cons_self b rest)
    have hrest : ∀ x ∈ rest, x.length = 16 := fun x hx => h x (List.mem_cons_of_mem b hx)
    simp [hb, ih hrest]
    ring

theorem cbcEnc_blocks (E16 : List Nat → List Nat)
    (hE : ∀ blk, blk.length = 16 → (E16 blk).length = 16) :
    ∀ (pt : List (List Nat)) (prev : List Nat), prev.length = 16 →
      (∀ b ∈ pt, b.length = 16) → ∀ c ∈ cbcEnc E16 prev pt, c.length = 16 := by
  intro pt
  induction pt with
  | nil =>
    intro prev _ _ c hc
    simp [cbcEnc] at hc
  | cons b rest ih =>
    intro prev hprev hpt c hc
    have hb : b.length = 16 := hpt b (List.mem_cons_self b rest)
    have hx : (xorBytes b prev).length = 16 := by
      rw [xorBytes_length, hb, hprev]
      simp
    simp only [cbcEnc] at hc
    rcases List.mem_cons.mp hc with hhead | htail
    · rw [hhead]
      exact hE _ hx
    · exact ih (E16 (xorBytes b prev)) (hE _ hx)
        (fun x hxm => hpt x (List.mem_cons_of_mem b hxm)) c htail

theorem cbcDec_cbcEnc (E16 D16 : List Nat → List Nat)
    (hE : ∀ blk, blk.length = 16 → (E16 blk).length = 16)
    (hD : ∀ blk, blk.length = 16 → D16 (E16 blk) = blk) :
    ∀ (pt : List (List Nat)) (prev : List Nat), prev.length = 16 →
      (∀ b ∈ pt, b.length = 16) →
      cbcDec D16 prev (cbcEnc E16 prev pt) = pt := by
  intro pt
  induction pt with
  | nil =>
    intro prev _ _
    simp [cbcEnc, cbcDec]
  | cons b rest ih =>
    intro prev hprev hpt
    have hb : b.length = 16 := hpt b (List.mem_cons_self b rest)
    have hx : (xorBytes b prev).length = 16 := by
      rw [xorBytes_length, hb, hprev]
      simp
    simp only [cbcEnc, cbcDec]
    rw [hD _ hx, xorBytes_cancel b prev (by omega),
      ih (E16 (xorBytes b prev)) (hE _ hx)
        (fun x hxm => hpt x (List.mem_cons_of_mem b hxm))]

theorem decodeShort_encodeShort (v : Nat) (hv : v < 65536) :
    decodeShort (encodeShort v) = v := by
  simp [encodeShort, decodeShort]
  omega

theorem cbcEnc_length (E16 : List Nat → List Nat) :
    ∀ (pt : List (List Nat)) (prev : List Nat), (cbcEnc E16 prev pt).length = pt.length := by
  intro pt
  induction pt with
  | nil => intro prev; rfl
  | cons b rest ih =>
    intro prev
    simp only [cbcEnc, List.length_cons, ih]

theorem encryptBytes_eq (E : List Nat → List Nat → List Nat) (key iv buffer : List Nat)
    (g : Nat → Nat) (k : Nat) (hkey : aesKeyOk key = true) :
    encryptBytes E key iv buffer g k =
      ((cbcEnc (E key) iv (chunk16 (encodeShort (buffer.length % 65536) ++ buffer ++
          randBytes g k ((CHUNK_SIZE - (2 + buffer.length) % CHUNK_SIZE) % CHUNK_SIZE)))).flatten,
       k + (CHUNK_SIZE - (2 + buffer.length) % CHUNK_SIZE) % CHUNK_SIZE) := by
  have hlb : (encodeShort (buffer.length % 65536)).length = 2 := by
    simp [encodeShort]
  have hC : CHUNK_SIZE = 16 := rfl
  simp only [encryptBytes, hkey, if_true, hlb]
  by_cases hrem : (2 + buffer.length) % CHUNK_SIZE = 0
  · rw [hC] at hrem ⊢
    simp [hrem, randBytes]
  · rw [hC] at hrem ⊢
    rw [if_neg hrem]
    have h1 : (16 - (2 + buffer.length) % 16) % 16 = 16 - (2 + buffer.length) % 16 := by
      omega
    rw [h1]

/-- C4: for every 16-byte key, every non-empty payload of at most 65535
bytes, every choice of random IV and padding, and every block cipher
satisfying the two AES laws assumed here (block-length preservation and
decryption inverting encryption), `EncryptionShaper.Transform` emits
exactly one datagram of 16 plus a positive multiple of 16 bytes, and
`EncryptionShaper.Restore` of that datagram yields exactly `[b]`. -/
theorem encryption_roundtrip (E D : List Nat → List Nat → List Nat) (key : List Nat)
    (hkey : key.length = 16)
    (hE : ∀ blk, blk.length = 16 → (E key blk).length = 16)
    (hD : ∀ blk, blk.length = 16 → D key (E key blk) = blk)
    (b : List Nat) (hb : b ≠ []) (hblen : b.length ≤ 65535)
    (g : Nat → Nat) (k : Nat) :
    ∃ dgram k2 m,
      EncTransform E key b g k = ([dgram], k2) ∧
      dgram.length = IV_SIZE + CHUNK_SIZE * m ∧ 1 ≤ m ∧
      EncRestore D key dgram = some [b] := by
  have hC : CHUNK_SIZE = 16 := rfl
  have hI : IV_SIZE = 16 := rfl
  have hkeyOk : aesKeyOk key = true := by
    simp [aesKeyOk, hkey]
  have hb1 : 1 ≤ b.length := List.length_pos.mpr hb
  set padlen := (CHUNK_SIZE - (2 + b.length) % CHUNK_SIZE) % CHUNK_SIZE with hpad
  rw [hC] at hpad
  set pt := encodeShort (b.length % 65536) ++ b ++ randBytes g (k + IV_SIZE) padlen with hpt
  set iv := randBytes g k IV_SIZE with hiv
  have hivlen : iv.length = IV_SIZE := randBytes_length g k IV_SIZE
  have hivlen16 : iv.length = 16 := hivlen
  have he2 : (encodeShort (b.length % 65536)).length = 2 := by
    simp [encodeShort]
  have hptlen : pt.length = 2 + b.length + padlen := by
    simp only [hpt, List.length_append, he2, randBytes_length]
  have hdvd : 16 ∣ pt.length := by
    omega
  have hptpos : 16 ≤ pt.length := by
    omega
  have hblocks : ∀ x ∈ chunk16 pt, x.length = 16 :=
    mem_chunk16_length pt.length pt le_rfl
  have hctblocks : ∀ c ∈ cbcEnc (E key) iv (chunk16 pt), c.length = 16 :=
    cbcEnc_blocks (E key) hE (chunk16 pt) iv hivlen16 hblocks
  set ct := (cbcEnc (E key) iv (chunk16 pt)).flatten with hct
  have hchunklen : 16 * (chunk16 pt).length = pt.length := by
    have h1 := flatten_length_of_blocks (chunk16 pt) hblocks
    rw [flatten_chunk16 pt.length pt le_rfl hdvd] at h1
    omega
  have hctlen : ct.length = pt.length := by
    rw [hct, flatten_length_of_blocks _ hctblocks, cbcEnc_length, hchunklen]
  have htrans : EncTransform E key b g k = ([iv ++ ct], k + IV_SIZE + padlen) := by
    simp only [EncTransform]
    rw [encryptBytes_eq E key iv b g (k + IV_SIZE) hkeyOk]
  refine ⟨iv ++ ct, k + IV_SIZE + padlen, pt.length / 16, htrans, ?_, ?_, ?_⟩
  · simp only [List.length_append, hivlen, hctlen]
    rw [hI, hC]
    omega
  · omega
  · have hlen2 : ¬((iv ++ ct).length < IV_SIZE) := by
      simp only [List.length_append, hivlen]
      omega
    simp only [EncRestore, if_neg hlen2]
    rw [List.take_left' hivlen, List.drop_left' hivlen]
    simp only [decryptBytes, hkeyOk, if_true]
    rw [hct, chunk16_flatten_of_blocks _ hctblocks,
      cbcDec_cbcEnc (E key) (D key) hE hD (chunk16 pt) iv hivlen16 hblocks,
      flatten_chunk16 pt.length pt le_rfl hdvd]
    rw [if_neg (show ¬(pt.length < 2) by omega)]
    rw [hpt, List.append_assoc, List.take_left' he2, List.drop_left' he2]
    rw [decodeShort_encodeShort _ (by omega), Nat.mod_eq_of_lt (by omega)]
    by_cases hp0 : padlen = 0
    · simp [hp0, randBytes]
    · have hgt : (b ++ randBytes g (k + IV_SIZE) padlen).length > b.length := by
        simp only [List.length_append, randBytes_length]
        omega
      rw [if_pos hgt, List.take_left]
      rfl

/-- Witness for C4: the identity block cipher (which satisfies both
cipher laws), the all-zero 16-byte key, the payload `[7]`, and the zero
random stream. -/
theorem encryption_roundtrip_witness :
    ∃ dgram k2 m,
      EncTransform (fun _ blk => blk) (List.replicate 16 0) [7] (fun _ => 0) 0 = ([dgram], k2) ∧
      dgram.length = IV_SIZE + CHUNK_SIZE * m ∧ 1 ≤ m ∧
      EncRestore (fun _ blk => blk) (List.replicate 16 0) dgram = some [[7]] :=
  encryption_roundtrip (fun _ blk => blk) (fun _ blk => blk) (List.replicate 16 0)
    (by simp) (fun blk h => h) (fun blk h => rfl) [7] (by simp) (by simp) (fun _ => 0) 0

end Protean
